import Mathlib

/-!
# MECAT: chunked binary I/O, compressed streams and the packed k-mer

A shallow embedding of two source files,

* `src/mecat2canu/src/meryl/test/kmerlite.H` (class `kMerLite`), and
* `src/extract_sequences/src/common/AS_UTL_fileIO.C`
  (`AS_UTL_safeWrite`, `AS_UTL_safeRead`, `AS_UTL_fileExists`, `AS_UTL_ftell`,
  `compressedFileReader`, `compressedFileWriter`),

followed by the properties established about them.

Conventions.  `size_t`, `uint64` and `off_t` values are natural numbers and every
operation that can wrap is reduced modulo `2 ^ 64` (`2 ^ 32` for `uint32`).
A call of the C library (`fread`, `fwrite`, `ftello`, `stat`) is a parameter of
the embedded function; the process-terminating paths (`assert`, `exit(1)`) are
explicit results.  A loop whose termination depends on the environment takes a
fuel argument and reports `Run.fuel` when the fuel is exhausted.
-/

set_option autoImplicit false

/-! ## Part 1: `kMerLite` -/

namespace kMerLite

/-- The read `_wd[i]` of the word array.  A word array is a list of naturals, index 0
first; an index past the end reads as 0. -/
def wd (a : List Nat) (i : Nat) : Nat := a.getD i 0

/-- A `uint64 _wd[KMER_WORDS]` array: `KMER_WORDS` words, each below `2 ^ 64`. -/
def IsKmer (KMER_WORDS : Nat) (a : List Nat) : Prop :=
  a.length = KMER_WORDS ∧ ∀ i, i < KMER_WORDS → wd a i < 2 ^ 64

/-- The words read as one unsigned integer, `sum over i of word[i] * 2^(64*i)`. -/
def val (KMER_WORDS : Nat) (a : List Nat) : Nat :=
  ∑ i in Finset.range KMER_WORDS, wd a i * 2 ^ (64 * i)

/-- The loop `for (uint32 i=KMER_WORDS; i--; ) res |= _wd[i] ^ r._wd[i];` of
`operator==` and `operator!=`, started with counter `i` and accumulator `res`. -/
def xorLoop (a r : List Nat) : Nat → Nat → Nat
  | 0, res => res
  | i + 1, res => xorLoop a r i (res ||| (wd a i ^^^ wd r i))

/-- The loop of `operator<` (and, with `dflt = true`, of `operator<=`): from the word
below counter `i` downwards, the first differing word decides; `dflt` is returned when
the loop runs out. -/
def ltLoop (dflt : Bool) (a r : List Nat) : Nat → Bool
  | 0 => dflt
  | i + 1 =>
    if wd a i < wd r i then true
    else if wd a i > wd r i then false
    else ltLoop dflt a r i

/-- The loop of `operator>` (and, with `dflt = true`, of `operator>=`). -/
def gtLoop (dflt : Bool) (a r : List Nat) : Nat → Bool
  | 0 => dflt
  | i + 1 =>
    if wd a i > wd r i then true
    else if wd a i < wd r i then false
    else gtLoop dflt a r i

/-- Source `operator!=`: the `KMER_WORDS == 1` specialisation, else the XOR loop. -/
def opNe (KMER_WORDS : Nat) (a r : List Nat) : Bool :=
  if KMER_WORDS = 1 then wd a 0 != wd r 0
  else xorLoop a r (KMER_WORDS % 2 ^ 32) 0 != 0

/-- Source `operator==`. -/
def opEq (KMER_WORDS : Nat) (a r : List Nat) : Bool :=
  if KMER_WORDS = 1 then wd a 0 == wd r 0
  else xorLoop a r (KMER_WORDS % 2 ^ 32) 0 == 0

/-- Source `operator<`. -/
def opLt (KMER_WORDS : Nat) (a r : List Nat) : Bool :=
  if KMER_WORDS = 1 then decide (wd a 0 < wd r 0)
  else ltLoop false a r (KMER_WORDS % 2 ^ 32)

/-- Source `operator>`. -/
def opGt (KMER_WORDS : Nat) (a r : List Nat) : Bool :=
  if KMER_WORDS = 1 then decide (wd a 0 > wd r 0)
  else gtLoop false a r (KMER_WORDS % 2 ^ 32)

/-- Source `operator<=`. -/
def opLe (KMER_WORDS : Nat) (a r : List Nat) : Bool :=
  if KMER_WORDS = 1 then decide (wd a 0 ≤ wd r 0)
  else ltLoop true a r (KMER_WORDS % 2 ^ 32)

/-- Source `operator>=`. -/
def opGe (KMER_WORDS : Nat) (a r : List Nat) : Bool :=
  if KMER_WORDS = 1 then decide (wd a 0 ≥ wd r 0)
  else gtLoop true a r (KMER_WORDS % 2 ^ 32)

/-- Modelled from the spec: the macro `uint32MASK` of `bio++.H` is not under `src/`.
It is the mask of the low `n` bits, so that `merSize & uint32MASK(5)` is the
remainder of `merSize` modulo the per-word base capacity 32. -/
def uint32MASK (n : Nat) : Nat := 2 ^ n - 1

/-- One call `::merToString(width, _wd[index], str)` of the external per-word renderer:
it renders `width` bases of the word at `index`. -/
structure Render where
  width : Nat
  index : Nat
deriving DecidableEq, Repr

/-- The loop `while (lastWord > 0) { lastWord--; ::merToString(32, _wd[lastWord], str); str += 32; }`. -/
def wholeWords : Nat → List Render
  | 0 => []
  | lastWord + 1 => ⟨32, lastWord⟩ :: wholeWords lastWord

/-- The calls of the per-word renderer made by `kMerLite::merToString(merSize, instr)`,
in the order they are made; each writes at the position the previous one ended. -/
def merToStringCalls (merSize : Nat) : List Render :=
  let lastWord := merSize >>> 5
  let lastWord :=
    if merSize &&& uint32MASK 6 = 0 then (lastWord + 1) % 2 ^ 32 else lastWord
  let lead : List Render :=
    if merSize &&& uint32MASK 5 ≠ 0 then [⟨merSize &&& uint32MASK 5, lastWord⟩] else []
  lead ++ wholeWords lastWord

/-- The characters `kMerLite::merToString` leaves in `instr`, for a per-word renderer
`render width word`. -/
def merToString (render : Nat → Nat → List Char) (a : List Nat) (merSize : Nat) :
    List Char :=
  ((merToStringCalls merSize).map fun c => render c.width (wd a c.index)).flatten

end kMerLite

/-! ## Part 2: `AS_UTL_fileIO.C` -/

namespace AS_UTL

/-- How the run of a function that can terminate the process ends. -/
inductive Run (β : Type) where
  /-- The function returned `r`. -/
  | done (r : β)
  /-- The process was terminated: a failed `assert`. -/
  | abort
  /-- The loop was still running when the fuel ran out. -/
  | fuel
deriving DecidableEq, Repr

/-- `EINTR` of `<errno.h>` (Linux). -/
def EINTR : Nat := 4
/-- `EBADF` of `<errno.h>` (Linux). -/
def EBADF : Nat := 9
/-- `ESPIPE` of `<errno.h>` (Linux). -/
def ESPIPE : Nat := 29

/-! ### `AS_UTL_safeWrite` -/

/-- What one `fwrite(ptr, size, n, file)` leaves: the stream, the returned element
count and `errno` (which the caller set to 0 before the call). -/
structure Fwrite (σ : Type) where
  file : σ
  written : Nat
  errno : Nat

/-- The `while (position < nobj)` loop of `AS_UTL_safeWrite`; `length` is the chunk
capacity.  `fwrite file ptr size n` receives the memory from `ptr` on as a list. -/
def safeWriteLoop {σ α : Type} (fwrite : σ → List α → Nat → Nat → Fwrite σ)
    (buffer : List α) (size nobj length : Nat) : Nat → σ → Nat → Run σ
  | 0, _, _ => Run.fuel
  | fuel + 1, file, position =>
    if position < nobj then
      let towrite := if (position + length) % 2 ^ 64 > nobj then nobj - position else length
      let w := fwrite file (buffer.drop ((position * size) % 2 ^ 64)) size towrite
      if w.errno ≠ 0 then Run.abort
      else safeWriteLoop fwrite buffer size nobj length fuel w.file
        ((position + w.written) % 2 ^ 64)
    else Run.done file

/-- Source `AS_UTL_safeWrite(file, buffer, desc, size, nobj)`; it returns the stream. -/
def AS_UTL_safeWrite {σ α : Type} (fwrite : σ → List α → Nat → Nat → Fwrite σ)
    (file : σ) (buffer : List α) (size nobj : Nat) (fuel : Nat) : Run σ :=
  safeWriteLoop fwrite buffer size nobj (32 * 1024 * 1024 / size) fuel file 0

/-- An output stream: the bytes appended so far, the number of `fwrite` calls made,
and its behaviour: on call number `i`, offered `n` elements, it takes
`min (accept i n).1 n` whole elements and leaves `errno = (accept i n).2`. -/
structure OStream (α : Type) where
  bytes : List α
  calls : Nat
  accept : Nat → Nat → Nat × Nat

/-- The `fwrite` of an `OStream`. -/
def OStream.fwrite {α : Type} (f : OStream α) (ptr : List α) (size n : Nat) :
    Fwrite (OStream α) :=
  let k := min (f.accept f.calls n).1 n
  { file := { f with bytes := f.bytes ++ ptr.take (k * size), calls := f.calls + 1 }
    written := k
    errno := (f.accept f.calls n).2 }

/-- The stream behaviour in which every write takes all it is offered, without error. -/
def acceptAll : Nat → Nat → Nat × Nat := fun _ n => (n, 0)

/-! ### `AS_UTL_safeRead` -/

/-- What one `fread(ptr, size, n, file)` leaves: the stream, the bytes stored at
`ptr`, the returned element count, `feof(file)` and `errno` (0 before the call). -/
structure Fread (σ α : Type) where
  file : σ
  stored : List α
  count : Nat
  eof : Bool
  errno : Nat

/-- One chunk read as `AS_UTL_safeRead` sees it (a ghost record): the elements asked
for, the elements transferred, `feof` and `errno` after the call. -/
structure Chunk where
  toread : Nat
  written : Nat
  eof : Bool
  errno : Nat
deriving DecidableEq, Repr

/-- The memory `buffer` after `data` is stored at byte offset `off`. -/
def blit {α : Type} (buffer : List α) (off : Nat) (data : List α) : List α :=
  buffer.take off ++ data ++ buffer.drop (off + data.length)

/-- A run of `AS_UTL_safeRead`: the chunk reads made, in order, and how it ended;
when it returns, the returned `position`, the buffer and the stream. -/
structure ReadRun (σ α : Type) where
  log : List Chunk
  run : Run (Nat × List α × σ)

/-- The `while (position < nobj)` loop of `AS_UTL_safeRead` with its `finish:` exit. -/
def safeReadLoop {σ α : Type} (fread : σ → Nat → Nat → Fread σ α)
    (size nobj length : Nat) : Nat → σ → List α → Nat → List Chunk → ReadRun σ α
  | 0, _, _, _, log => ⟨log, Run.fuel⟩
  | fuel + 1, file, buffer, position, log =>
    if position < nobj then
      let toread := if (position + length) % 2 ^ 64 > nobj then nobj - position else length
      let r := fread file size toread
      let buffer := blit buffer ((position * size) % 2 ^ 64) r.stored
      let position := (position + r.count) % 2 ^ 64
      let log := log ++ [⟨toread, r.count, r.eof, r.errno⟩]
      if r.eof || r.count == 0 then ⟨log, Run.done (position, buffer, r.file)⟩
      else if r.errno ≠ 0 && r.errno ≠ EINTR then ⟨log, Run.abort⟩
      else safeReadLoop fread size nobj length fuel r.file buffer position log
    else ⟨log, Run.done (position, buffer, file)⟩

/-- Source `AS_UTL_safeRead(file, buffer, desc, size, nobj)`. -/
def AS_UTL_safeRead {σ α : Type} (fread : σ → Nat → Nat → Fread σ α)
    (file : σ) (buffer : List α) (size nobj : Nat) (fuel : Nat) : ReadRun σ α :=
  safeReadLoop fread size nobj (32 * 1024 * 1024 / size) fuel file buffer 0 []

/-- An input stream: the bytes not yet read, the end-of-file indicator, the read
faults still to come (the next call transfers at most `faults.head.1` elements and
leaves `errno = faults.head.2`), and whether the library raises the end-of-file
indicator already on the read that consumes the last byte. -/
structure IStream (α : Type) where
  rest : List α
  eof : Bool
  faults : List (Nat × Nat)
  eager : Bool
deriving DecidableEq, Repr

/-- The `fread` of an `IStream`: it transfers the bytes of up to `n` elements, fewer
when the data ends (which raises the end-of-file indicator) or a fault is due. -/
def IStream.fread {α : Type} (f : IStream α) (size n : Nat) : Fread (IStream α) α :=
  let m := match f.faults with
    | [] => n
    | (k, _) :: _ => min k n
  let got := f.rest.take (m * size)
  let eof := f.eof || decide (got.length < m * size) ||
    (f.eager && (f.rest.drop (m * size)).isEmpty)
  { file := { rest := f.rest.drop (m * size), eof := eof, faults := f.faults.tail,
              eager := f.eager }
    stored := got
    count := got.length / size
    eof := eof
    errno := match f.faults with
      | [] => 0
      | (_, e) :: _ => e }

/-! ### `AS_UTL_fileExists` and `AS_UTL_ftell` -/

/-- What `stat(path, &s)` leaves: `errno` and, when it is 0, `s.st_mode`. -/
structure Stat where
  errno : Nat
  st_mode : Nat

/-- `S_IFDIR` and the permission bits of `<sys/stat.h>`. -/
def S_IFDIR : Nat := 0o040000
def S_IRUSR : Nat := 0o400
def S_IWUSR : Nat := 0o200
def S_IXUSR : Nat := 0o100
def S_IRGRP : Nat := 0o040
def S_IWGRP : Nat := 0o020
def S_IXGRP : Nat := 0o010
def S_IROTH : Nat := 0o004
def S_IWOTH : Nat := 0o002
def S_IXOTH : Nat := 0o001

/-- Source `AS_UTL_fileExists(path, directory, readwrite)`, for the file system
`stat`. -/
def AS_UTL_fileExists (stat : List Char → Stat) (path : List Char)
    (directory readwrite : Int) : Int :=
  let s := stat path
  if s.errno ≠ 0 then 0
  else if directory = 1 ∧ readwrite = 0 ∧ s.st_mode &&& S_IFDIR ≠ 0 ∧
      s.st_mode &&& (S_IRUSR ||| S_IRGRP ||| S_IROTH) ≠ 0 ∧
      s.st_mode &&& (S_IXUSR ||| S_IXGRP ||| S_IXOTH) ≠ 0 then 1
  else if directory = 1 ∧ readwrite = 1 ∧ s.st_mode &&& S_IFDIR ≠ 0 ∧
      s.st_mode &&& (S_IRUSR ||| S_IRGRP ||| S_IROTH) ≠ 0 ∧
      s.st_mode &&& (S_IWUSR ||| S_IWGRP ||| S_IWOTH) ≠ 0 ∧
      s.st_mode &&& (S_IXUSR ||| S_IXGRP ||| S_IXOTH) ≠ 0 then 1
  else if directory = 0 ∧ readwrite = 0 ∧
      s.st_mode &&& (S_IRUSR ||| S_IRGRP ||| S_IROTH) ≠ 0 then 1
  else if directory = 0 ∧ readwrite = 1 ∧
      s.st_mode &&& (S_IRUSR ||| S_IRGRP ||| S_IROTH) ≠ 0 ∧
      s.st_mode &&& (S_IWUSR ||| S_IWGRP ||| S_IWOTH) ≠ 0 then 1
  else 0

/-- Source `AS_UTL_ftell(stream)`; `ftello stream` is the pair of the returned
position and the `errno` it leaves (0 before the call). -/
def AS_UTL_ftell {σ : Type} (ftello : σ → Int × Nat) (stream : σ) : Run Int :=
  let pos := (ftello stream).1
  let errno := (ftello stream).2
  if errno = ESPIPE ∨ errno = EBADF then
    Run.done (if (1 : Int) < 42 then 1 else 0)
  else if errno ≠ 0 then Run.abort
  else Run.done pos

/-! ### `compressedFileReader` and `compressedFileWriter` -/

/-- A C string is the list of its characters before the terminating NUL.
`strcasecmp(s, t)`: the strings are compared character by character after `tolower`
(C locale); only the sign of the result is specified, so it is -1, 0 or 1. -/
def strcasecmp : List Char → List Char → Int
  | [], [] => 0
  | [], _ :: _ => -1
  | _ :: _, [] => 1
  | c :: s, d :: t =>
    if c.toLower = d.toLower then strcasecmp s t
    else if c.toLower < d.toLower then -1 else 1

/-- `strcmp(s, t)`, with result -1, 0 or 1. -/
def strcmp : List Char → List Char → Int
  | [], [] => 0
  | [], _ :: _ => -1
  | _ :: _, [] => 1
  | c :: s, d :: t =>
    if c = d then strcmp s t
    else if c < d then -1 else 1

/-- The conversion of a `size_t` to `int32`, as in `int32 len = strlen(filename)`. -/
def toInt32 (n : Nat) : Int := (((n + 2 ^ 31) % 2 ^ 32 : Nat) : Int) - 2 ^ 31

/-- What the constructor stores in `_file`: the call that produced the handle. -/
inductive Handle where
  /-- The result of `popen(cmd, mode)`. -/
  | popen (cmd : List Char) (mode : Char)
  /-- The result of `fopen(path, mode)`. -/
  | fopen (path : List Char) (mode : Char)
  /-- The stream `stdin`. -/
  | stdin
  /-- The stream `stdout`. -/
  | stdout
deriving DecidableEq, Repr

/-- The members of `compressedFileReader` and of `compressedFileWriter`. -/
structure CompressedFile where
  _file : Handle
  _pipe : Bool
  _stdi : Bool
deriving DecidableEq, Repr

/-- The environment of a constructor: the file system as seen by `stat`, and the
`errno` that `popen` or `fopen` leaves when asked for a handle. -/
structure OS where
  stat : List Char → Stat
  opened : Handle → Nat

/-- The value of `errno` at the final test of a constructor: it was set to 0 before the
branches, and only `popen` and `fopen` can change it. -/
def OS.errnoAfter (os : OS) : Handle → Nat
  | Handle.stdin => 0
  | Handle.stdout => 0
  | h => os.opened h

/-- How a constructor ends. -/
inductive Ctor where
  /-- The object is constructed. -/
  | ok (f : CompressedFile)
  /-- The `exit(1)` after the existence test of the reader (source line 344). -/
  | missingInput
  /-- The `exit(1)` after the final `errno` test (source lines 373 and 431). -/
  | openFailed
deriving DecidableEq, Repr

/-- Source `compressedFileReader::compressedFileReader(filename)`; `none` is the null
pointer. -/
def compressedFileReader (os : OS) (filename : Option (List Char)) : Ctor :=
  let len : Int := match filename with
    | none => 0
    | some s => toInt32 s.length
  let name := filename.getD []
  if len > 0 ∧ AS_UTL_fileExists os.stat name 0 0 = 0 then Ctor.missingInput
  else
    let f : CompressedFile :=
      if len > 3 ∧ strcasecmp (name.drop (len - 3).toNat) ".gz".toList = 0 then
        ⟨Handle.popen ("gzip -dc ".toList ++ name) 'r', true, false⟩
      else if len > 4 ∧ strcasecmp (name.drop (len - 4).toNat) ".bz2".toList = 0 then
        ⟨Handle.popen ("bzip2 -dc ".toList ++ name) 'r', true, false⟩
      else if len > 3 ∧ strcasecmp (name.drop (len - 3).toNat) ".xz".toList = 0 then
        ⟨Handle.popen ("xz -dc ".toList ++ name) 'r', true, false⟩
      else if len = 0 ∨ strcmp name "-".toList = 0 then
        ⟨Handle.stdin, false, true⟩
      else
        ⟨Handle.fopen name 'r', false, false⟩
    if os.errnoAfter f._file ≠ 0 then Ctor.openFailed else Ctor.ok f

/-- Source `compressedFileWriter::compressedFileWriter(filename, level)`. -/
def compressedFileWriter (os : OS) (filename : Option (List Char)) (level : Int) :
    Ctor :=
  let len : Int := match filename with
    | none => 0
    | some s => toInt32 s.length
  let name := filename.getD []
  let f : CompressedFile :=
    if len > 3 ∧ strcasecmp (name.drop (len - 3).toNat) ".gz".toList = 0 then
      ⟨Handle.popen ("gzip -".toList ++ (toString level).toList ++ "c > ".toList ++ name)
        'w', true, false⟩
    else if len > 4 ∧ strcasecmp (name.drop (len - 4).toNat) ".bz2".toList = 0 then
      ⟨Handle.popen ("bzip2 -".toList ++ (toString level).toList ++ "c > ".toList ++ name)
        'w', true, false⟩
    else if len > 3 ∧ strcasecmp (name.drop (len - 3).toNat) ".xz".toList = 0 then
      ⟨Handle.popen ("xz -".toList ++ (toString level).toList ++ "c > ".toList ++ name)
        'w', true, false⟩
    else if len = 0 ∨ strcmp name "-".toList = 0 then
      ⟨Handle.stdout, false, true⟩
    else
      ⟨Handle.fopen name 'w', false, false⟩
  if os.errnoAfter f._file ≠ 0 then Ctor.openFailed else Ctor.ok f

/-- The transport kinds of the data model, a pipe with the tool it runs. -/
inductive Transport where
  | pipe (tool : List Char)
  | standard
  | direct
deriving DecidableEq, Repr

/-- The transport of a constructed object, read off its members: the `_pipe` flag, then
the `_stdi` flag; the tool of a pipe is the first word of its command. -/
def CompressedFile.transport (f : CompressedFile) : Transport :=
  if f._pipe then
    Transport.pipe (match f._file with
      | Handle.popen cmd _ => cmd.takeWhile (fun c => c != ' ')
      | _ => [])
  else if f._stdi then Transport.standard
  else Transport.direct

/-- The name ends in the suffix `sfx`, compared ignoring ASCII case, after a
non-empty stem. -/
def EndsWithNoCase (name sfx : List Char) : Prop :=
  ∃ stem tail, stem ≠ [] ∧ name = stem ++ tail ∧ tail.map Char.toLower = sfx

/-- The suffix routing table of the spec, with the suffixes compared ignoring case, as a
relation between a file name and a transport. -/
def Routed (name : List Char) (tr : Transport) : Prop :=
  (EndsWithNoCase name ".gz".toList → tr = Transport.pipe "gzip".toList) ∧
  (EndsWithNoCase name ".bz2".toList → tr = Transport.pipe "bzip2".toList) ∧
  (EndsWithNoCase name ".xz".toList → tr = Transport.pipe "xz".toList) ∧
  (name = [] ∨ name = "-".toList → tr = Transport.standard) ∧
  (¬ EndsWithNoCase name ".gz".toList → ¬ EndsWithNoCase name ".bz2".toList →
    ¬ EndsWithNoCase name ".xz".toList → name ≠ [] → name ≠ "-".toList →
    tr = Transport.direct)

/-- A file system in which every path is a readable regular file, and every `popen`
and `fopen` succeeds. -/
def allPresent : OS := ⟨fun _ => ⟨0, 0o100644⟩, fun _ => 0⟩

/-- A file system in which no path exists (`stat` fails with `ENOENT`), while `popen`
and `fopen` succeed. -/
def noFiles : OS := ⟨fun _ => ⟨2, 0⟩, fun _ => 0⟩

end AS_UTL

/-! ## Lemmas on `kMerLite` -/

namespace kMerLite

theorem lor_eq_zero (x y : Nat) : x ||| y = 0 ↔ x = 0 ∧ y = 0 := by
  constructor
  · intro h
    have hb : ∀ k, (x.testBit k || y.testBit k) = false := by
      intro k
      rw [← Nat.testBit_lor, h, Nat.zero_testBit]
    constructor
    · apply Nat.eq_of_testBit_eq
      intro k
      have := hb k
      simp only [Bool.or_eq_false_iff] at this
      simp [this.1]
    · apply Nat.eq_of_testBit_eq
      intro k
      have := hb k
      simp only [Bool.or_eq_false_iff] at this
      simp [this.2]
  · rintro ⟨rfl, rfl⟩
    rfl

theorem xorLoop_eq_zero (a r : List Nat) (i res : Nat) :
    xorLoop a r i res = 0 ↔ res = 0 ∧ ∀ j, j < i → wd a j = wd r j := by
  induction i generalizing res with
  | zero => simp [xorLoop]
  | succ i ih =>
    rw [xorLoop, ih, lor_eq_zero, Nat.xor_eq_zero]
    constructor
    · rintro ⟨⟨h0, hi⟩, hj⟩
      refine ⟨h0, fun j hlt => ?_⟩
      rcases Nat.lt_succ_iff_lt_or_eq.mp hlt with h | h
      · exact hj j h
      · subst h; exact hi
    · rintro ⟨h0, hj⟩
      exact ⟨⟨h0, hj i (Nat.lt_succ_self i)⟩, fun j hlt => hj j (Nat.lt_succ_of_lt hlt)⟩

theorem words_one (a r : List Nat) :
    (∀ j, j < 1 → wd a j = wd r j) ↔ wd a 0 = wd r 0 := by
  constructor
  · intro h; exact h 0 Nat.zero_lt_one
  · intro h j hj
    have : j = 0 := by omega
    subst this; exact h

theorem opEq_iff (n : Nat) (hn : n < 2 ^ 32) (a r : List Nat) :
    opEq n a r = true ↔ ∀ j, j < n → wd a j = wd r j := by
  unfold opEq
  split
  · next h => subst h; rw [words_one]; simp
  · rw [Nat.mod_eq_of_lt hn, beq_iff_eq, xorLoop_eq_zero]; simp

theorem opNe_eq_not (n : Nat) (a r : List Nat) : opNe n a r = !opEq n a r := by
  unfold opNe opEq
  split <;> simp [bne]

theorem ltLoop_false_gtLoop_false (a r : List Nat) (i : Nat) :
    (ltLoop false a r i = false ∧ gtLoop false a r i = false) ↔
      ∀ j, j < i → wd a j = wd r j := by
  induction i with
  | zero => simp [ltLoop, gtLoop]
  | succ i ih =>
    rw [ltLoop, gtLoop]
    rcases Nat.lt_trichotomy (wd a i) (wd r i) with h | h | h
    · have h2 : ¬ wd a i > wd r i := by omega
      simp only [h, h2, if_true, if_false]
      constructor
      · rintro ⟨h1, -⟩; cases h1
      · intro hj; have := hj i (Nat.lt_succ_self i); omega
    · have h1 : ¬ wd a i < wd r i := by omega
      have h2 : ¬ wd a i > wd r i := by omega
      simp only [h1, h2, if_false]
      rw [ih]
      constructor
      · intro hj j hlt
        rcases Nat.lt_succ_iff_lt_or_eq.mp hlt with h3 | h3
        · exact hj j h3
        · subst h3; exact h
      · intro hj j hlt; exact hj j (Nat.lt_succ_of_lt hlt)
    · have h1 : ¬ wd a i < wd r i := by omega
      have h2 : wd a i > wd r i := h
      simp only [h1, h2, if_true, if_false]
      constructor
      · rintro ⟨-, h3⟩; cases h3
      · intro hj; have := hj i (Nat.lt_succ_self i); omega

theorem gtLoop_eq_ltLoop (dflt : Bool) (a r : List Nat) (i : Nat) :
    gtLoop dflt a r i = ltLoop dflt r a i := by
  induction i with
  | zero => rfl
  | succ i ih => simp only [gtLoop, ltLoop, ih, gt_iff_lt]

theorem val_succ (n : Nat) (a : List Nat) :
    val (n + 1) a = val n a + wd a n * 2 ^ (64 * n) := by
  unfold val
  rw [Finset.sum_range_succ]

theorem val_lt_pow (n : Nat) (a : List Nat) (ha : ∀ i, i < n → wd a i < 2 ^ 64) :
    val n a < 2 ^ (64 * n) := by
  induction n with
  | zero => simp [val]
  | succ n ih =>
    rw [val_succ]
    have h1 := ih (fun i hi => ha i (Nat.lt_succ_of_lt hi))
    have h2 : wd a n + 1 ≤ 2 ^ 64 := ha n (Nat.lt_succ_self n)
    have h3 : (wd a n + 1) * 2 ^ (64 * n) ≤ 2 ^ 64 * 2 ^ (64 * n) :=
      Nat.mul_le_mul_right _ h2
    have h4 : (2 : Nat) ^ (64 * (n + 1)) = 2 ^ 64 * 2 ^ (64 * n) := by
      rw [← pow_add]; congr 1; ring
    rw [h4]
    rw [Nat.add_mul, Nat.one_mul] at h3
    omega

theorem ltLoop_iff (n : Nat) (a r : List Nat)
    (ha : ∀ i, i < n → wd a i < 2 ^ 64) (hr : ∀ i, i < n → wd r i < 2 ^ 64) :
    (ltLoop false a r n = true ↔ val n a < val n r) ∧
    (ltLoop true a r n = true ↔ val n a ≤ val n r) := by
  induction n with
  | zero => simp [ltLoop, val]
  | succ n ih =>
    have ha1 := fun i (hi : i < n) => ha i (Nat.lt_succ_of_lt hi)
    have hr1 := fun i (hi : i < n) => hr i (Nat.lt_succ_of_lt hi)
    have hva := val_lt_pow n a ha1
    have hvr := val_lt_pow n r hr1
    obtain ⟨ih1, ih2⟩ := ih ha1 hr1
    rw [val_succ, val_succ, ltLoop, ltLoop]
    rcases Nat.lt_trichotomy (wd a n) (wd r n) with h | h | h
    · have h3 : (wd a n + 1) * 2 ^ (64 * n) ≤ wd r n * 2 ^ (64 * n) :=
        Nat.mul_le_mul_right _ h
      rw [Nat.add_mul, Nat.one_mul] at h3
      simp only [h, if_true, true_iff]
      constructor <;> omega
    · have h1 : ¬ wd a n < wd r n := by omega
      have h2 : ¬ wd a n > wd r n := by omega
      simp only [h1, h2, if_false]
      rw [ih1, ih2, h]
      constructor <;> constructor <;> intro <;> omega
    · have h1 : ¬ wd a n < wd r n := by omega
      have h3 : (wd r n + 1) * 2 ^ (64 * n) ≤ wd a n * 2 ^ (64 * n) :=
        Nat.mul_le_mul_right _ h
      rw [Nat.add_mul, Nat.one_mul] at h3
      have h2 : wd a n > wd r n := h
      simp only [h1, h2, if_true, if_false]
      constructor <;> constructor <;> intro h5
      · cases h5
      · omega
      · cases h5
      · omega

theorem opLt_eq_loop (n : Nat) (hn : n < 2 ^ 32) (a r : List Nat) :
    opLt n a r = ltLoop false a r n := by
  unfold opLt
  split
  · next h =>
    subst h
    simp only [ltLoop]
    by_cases h1 : wd a 0 < wd r 0 <;> simp [h1]
  · rw [Nat.mod_eq_of_lt hn]

theorem opLe_eq_loop (n : Nat) (hn : n < 2 ^ 32) (a r : List Nat) :
    opLe n a r = ltLoop true a r n := by
  unfold opLe
  split
  · next h =>
    subst h
    simp only [ltLoop]
    by_cases h1 : wd a 0 < wd r 0
    · simp [h1]; omega
    · by_cases h2 : wd a 0 > wd r 0
      · simp [h1, h2]
      · simp [h1, h2]; omega
  · rw [Nat.mod_eq_of_lt hn]

theorem opGt_eq_opLt (n : Nat) (a r : List Nat) : opGt n a r = opLt n r a := by
  unfold opGt opLt
  split
  · rfl
  · exact gtLoop_eq_ltLoop _ _ _ _

theorem opGe_eq_opLe (n : Nat) (a r : List Nat) : opGe n a r = opLe n r a := by
  unfold opGe opLe
  split
  · rfl
  · exact gtLoop_eq_ltLoop _ _ _ _

theorem opLt_iff (n : Nat) (hn : n < 2 ^ 32) (a r : List Nat)
    (ha : IsKmer n a) (hr : IsKmer n r) :
    opLt n a r = true ↔ val n a < val n r := by
  rw [opLt_eq_loop n hn]; exact (ltLoop_iff n a r ha.2 hr.2).1

theorem opLe_iff (n : Nat) (hn : n < 2 ^ 32) (a r : List Nat)
    (ha : IsKmer n a) (hr : IsKmer n r) :
    opLe n a r = true ↔ val n a ≤ val n r := by
  rw [opLe_eq_loop n hn]; exact (ltLoop_iff n a r ha.2 hr.2).2

theorem words_eq_of_val_eq (n : Nat) (a r : List Nat)
    (ha : IsKmer n a) (hr : IsKmer n r) (h : val n a = val n r) : a = r := by
  have h1 : ltLoop false a r n = false := by
    have := (ltLoop_iff n a r ha.2 hr.2).1
    cases hc : ltLoop false a r n
    · rfl
    · have := this.mp hc; omega
  have h2 : gtLoop false a r n = false := by
    rw [gtLoop_eq_ltLoop]
    have := (ltLoop_iff n r a hr.2 ha.2).1
    cases hc : ltLoop false r a n
    · rfl
    · have := this.mp hc; omega
  have hw := (ltLoop_false_gtLoop_false a r n).mp ⟨h1, h2⟩
  apply List.ext_getElem (by rw [ha.1, hr.1])
  intro i hi1 hi2
  have := hw i (by rw [← ha.1]; exact hi1)
  unfold wd at this
  rwa [List.getD_eq_getElem _ _ hi1, List.getD_eq_getElem _ _ hi2] at this

theorem wholeWords_width (n : Nat) : ((wholeWords n).map Render.width).sum = 32 * n := by
  induction n with
  | zero => rfl
  | succ n ih => simp only [wholeWords, List.map_cons, List.sum_cons, ih]; omega

theorem wholeWords_index (n : Nat) : ∀ c ∈ wholeWords n, c.index < n := by
  induction n with
  | zero => intro c hc; cases hc
  | succ n ih =>
    intro c hc
    simp only [wholeWords, List.mem_cons] at hc
    rcases hc with rfl | hc
    · exact Nat.lt_succ_self n
    · exact Nat.lt_succ_of_lt (ih c hc)

/-- The number of characters `merToString` writes: `merSize`, except that a `merSize`
that is a multiple of 64 gets one extra leading word of 32 characters. -/
theorem merToStringCalls_width (merSize : Nat) (h : merSize < 2 ^ 32) :
    ((merToStringCalls merSize).map Render.width).sum =
      if merSize % 64 = 0 then merSize + 32 else merSize := by
  have h6 : merSize &&& uint32MASK 6 = merSize % 64 :=
    Nat.and_pow_two_sub_one_eq_mod merSize 6
  have h5 : merSize &&& uint32MASK 5 = merSize % 32 :=
    Nat.and_pow_two_sub_one_eq_mod merSize 5
  have hs : merSize >>> 5 = merSize / 32 := Nat.shiftRight_eq_div_pow merSize 5
  unfold merToStringCalls
  simp only [h6, h5, hs, List.map_append, List.sum_append, wholeWords_width]
  have hw : (merSize / 32 + 1) % 2 ^ 32 = merSize / 32 + 1 :=
    Nat.mod_eq_of_lt (by omega)
  by_cases h64 : merSize % 64 = 0
  · have h32 : ¬ merSize % 32 ≠ 0 := by omega
    simp only [if_pos h64, if_neg h32, hw, List.map_nil, List.sum_nil]
    omega
  · by_cases h32 : merSize % 32 ≠ 0
    · simp only [if_neg h64, if_pos h32, List.map_cons, List.map_nil, List.sum_cons,
        List.sum_nil]
      omega
    · simp only [if_neg h64, if_neg h32, List.map_nil, List.sum_nil]
      omega

end kMerLite

/-! ## Theorems on `kMerLite` -/

/-- C4: for every word count below `2 ^ 32` (the range of the `uint32` loop counter;
the `KMER_WORDS == 1` specialisation included) and all `uint64` word arrays,
`<`, `>`, `<=`, `>=` of `kMerLite` agree with the comparison of the arrays read as
one unsigned integer `val`; hence `<` is irreflexive, transitive and total. -/
theorem kMerLite.order_eq_bigint_order (n : Nat) (hn : n < 2 ^ 32) (a b c : List Nat)
    (ha : kMerLite.IsKmer n a) (hb : kMerLite.IsKmer n b) (hc : kMerLite.IsKmer n c) :
    (kMerLite.opLt n a b = true ↔ kMerLite.val n a < kMerLite.val n b) ∧
    (kMerLite.opGt n a b = true ↔ kMerLite.val n a > kMerLite.val n b) ∧
    (kMerLite.opLe n a b = true ↔ kMerLite.val n a ≤ kMerLite.val n b) ∧
    (kMerLite.opGe n a b = true ↔ kMerLite.val n a ≥ kMerLite.val n b) ∧
    kMerLite.opLt n a a = false ∧
    (kMerLite.opLt n a b = true → kMerLite.opLt n b c = true →
      kMerLite.opLt n a c = true) ∧
    (kMerLite.opLt n a b = true ∨ a = b ∨ kMerLite.opLt n b a = true) := by
  have hab := kMerLite.opLt_iff n hn a b ha hb
  have hba := kMerLite.opLt_iff n hn b a hb ha
  have hbc := kMerLite.opLt_iff n hn b c hb hc
  have hac := kMerLite.opLt_iff n hn a c ha hc
  have haa := kMerLite.opLt_iff n hn a a ha ha
  refine ⟨hab, ?_, kMerLite.opLe_iff n hn a b ha hb, ?_, ?_, ?_, ?_⟩
  · rw [kMerLite.opGt_eq_opLt]; exact hba
  · rw [kMerLite.opGe_eq_opLe]; exact kMerLite.opLe_iff n hn b a hb ha
  · cases h : kMerLite.opLt n a a
    · rfl
    · have := haa.mp h; omega
  · intro h1 h2
    exact hac.mpr (Nat.lt_trans (hab.mp h1) (hbc.mp h2))
  · rcases Nat.lt_trichotomy (kMerLite.val n a) (kMerLite.val n b) with h | h | h
    · exact Or.inl (hab.mpr h)
    · exact Or.inr (Or.inl (kMerLite.words_eq_of_val_eq n a b ha hb h))
    · exact Or.inr (Or.inr (hba.mpr h))

/-- Witness of C4 at two-word arrays: `[5, 1] < [0, 2] < [7, 2]`. -/
theorem kMerLite.order_eq_bigint_order_witness :
    kMerLite.IsKmer 2 [5, 1] ∧ kMerLite.opLt 2 [5, 1] [7, 2] = true ∧
    (kMerLite.opLt 2 [5, 1] [0, 2] = true ↔
      kMerLite.val 2 [5, 1] < kMerLite.val 2 [0, 2]) :=
  have h1 : kMerLite.IsKmer 2 [5, 1] := ⟨rfl, by decide⟩
  have h2 : kMerLite.IsKmer 2 [0, 2] := ⟨rfl, by decide⟩
  have h3 : kMerLite.IsKmer 2 [7, 2] := ⟨rfl, by decide⟩
  have h := kMerLite.order_eq_bigint_order 2 (by decide) [5, 1] [0, 2] [7, 2] h1 h2 h3
  ⟨h1, h.2.2.2.2.2.1 (by decide) (by decide), h.1⟩

/-- C5: for every word count below `2 ^ 32`, `operator==` is true exactly when all
words agree, `operator!=` is its negation, equality is reflexive, symmetric and
transitive, and `a == b` holds exactly when neither `a < b` nor `a > b`. -/
theorem kMerLite.equality_is_wordwise (n : Nat) (hn : n < 2 ^ 32) (a b c : List Nat) :
    (kMerLite.opEq n a b = true ↔ ∀ i, i < n → kMerLite.wd a i = kMerLite.wd b i) ∧
    kMerLite.opNe n a b = (!kMerLite.opEq n a b) ∧
    kMerLite.opEq n a a = true ∧
    (kMerLite.opEq n a b = true → kMerLite.opEq n b a = true) ∧
    (kMerLite.opEq n a b = true → kMerLite.opEq n b c = true →
      kMerLite.opEq n a c = true) ∧
    (kMerLite.opEq n a b = true ↔
      (kMerLite.opLt n a b = false ∧ kMerLite.opGt n a b = false)) := by
  refine ⟨kMerLite.opEq_iff n hn a b, kMerLite.opNe_eq_not n a b, ?_, ?_, ?_, ?_⟩
  · rw [kMerLite.opEq_iff n hn]; intro i _; rfl
  · rw [kMerLite.opEq_iff n hn, kMerLite.opEq_iff n hn]
    intro h i hi; exact (h i hi).symm
  · rw [kMerLite.opEq_iff n hn, kMerLite.opEq_iff n hn, kMerLite.opEq_iff n hn]
    intro h1 h2 i hi; exact (h1 i hi).trans (h2 i hi)
  · rw [kMerLite.opEq_iff n hn, kMerLite.opGt_eq_opLt, kMerLite.opLt_eq_loop n hn a b,
      kMerLite.opLt_eq_loop n hn b a, ← kMerLite.gtLoop_eq_ltLoop false a b n]
    exact (kMerLite.ltLoop_false_gtLoop_false a b n).symm

/-- Witness of C5 at three-word arrays differing in the middle word only. -/
theorem kMerLite.equality_is_wordwise_witness :
    kMerLite.opEq 3 [1, 2, 3] [1, 9, 3] = false ∧
    kMerLite.opNe 3 [1, 2, 3] [1, 9, 3] = (!kMerLite.opEq 3 [1, 2, 3] [1, 9, 3]) ∧
    kMerLite.opEq 3 [1, 2, 3] [1, 2, 3] = true :=
  have h := kMerLite.equality_is_wordwise 3 (by decide) [1, 2, 3] [1, 9, 3] [1, 2, 3]
  ⟨by decide, h.2.1, h.2.2.1⟩

/-- C6: at `KMER_WORDS = 2` and `merSize = 64` (the full capacity), `merToString`
raises `lastWord` from 2 to 3 because `64 & uint32MASK(6)` is 0, so it renders the
words at index 2, 1, 0: it reads index 2, outside the two-word array, and writes 96
characters, not 64; at `merSize = 0` it writes 32 characters, not 0. -/
theorem kMerLite.merToString_overruns_at_64 :
    kMerLite.merToStringCalls 64 = [⟨32, 2⟩, ⟨32, 1⟩, ⟨32, 0⟩] ∧
    ((kMerLite.merToStringCalls 64).map kMerLite.Render.width).sum = 96 ∧
    (∃ c ∈ kMerLite.merToStringCalls 64, ¬ c.index < 2) ∧
    (∀ a : List Nat,
      (kMerLite.merToString (fun n _ => List.replicate n 'A') a 64).length = 96) ∧
    ((kMerLite.merToStringCalls 0).map kMerLite.Render.width).sum = 32 := by
  refine ⟨by decide, by decide, ⟨⟨32, 2⟩, by decide, by decide⟩, ?_, by decide⟩
  intro a
  have h : kMerLite.merToStringCalls 64 = [⟨32, 2⟩, ⟨32, 1⟩, ⟨32, 0⟩] := by decide
  simp [kMerLite.merToString, h]

/-! ## Lemmas on `AS_UTL_fileIO.C` -/

namespace AS_UTL

end AS_UTL

/-! ## Theorems on `AS_UTL_fileIO.C` -/

/-- C10: when `ftello` fails with `ESPIPE` or `EBADF`, `AS_UTL_ftell` returns the value
of the comparison `((off_t)1) < 42`, which is 1: a small offset, below `2 ^ 32`, and
not the large number its comment announces. -/
theorem AS_UTL.ftell_sentinel_is_one (pos : Int) :
    AS_UTL.AS_UTL_ftell (fun _ : Unit => (pos, AS_UTL.ESPIPE)) () = AS_UTL.Run.done 1 ∧
    AS_UTL.AS_UTL_ftell (fun _ : Unit => (pos, AS_UTL.EBADF)) () = AS_UTL.Run.done 1 ∧
    AS_UTL.AS_UTL_ftell (fun _ : Unit => (1, 0)) () = AS_UTL.Run.done 1 ∧
    (1 : Int) < 2 ^ 32 := by
  refine ⟨?_, ?_, ?_, by decide⟩ <;> simp [AS_UTL.AS_UTL_ftell, AS_UTL.ESPIPE, AS_UTL.EBADF]

/-- C7: for the filename `-` in a directory with no file of that name,
`compressedFileReader` does not bind to standard input: the existence test exempts
only the empty name, so the constructor exits with the missing-input error.  The
writer, and the reader for the empty name, bind to the standard stream. -/
theorem AS_UTL.reader_dash_is_missing_input :
    AS_UTL.compressedFileReader AS_UTL.noFiles (some "-".toList) =
      AS_UTL.Ctor.missingInput ∧
    AS_UTL.compressedFileReader AS_UTL.allPresent (some "-".toList) =
      AS_UTL.Ctor.ok ⟨AS_UTL.Handle.stdin, false, true⟩ ∧
    AS_UTL.compressedFileReader AS_UTL.noFiles (some "".toList) =
      AS_UTL.Ctor.ok ⟨AS_UTL.Handle.stdin, false, true⟩ ∧
    AS_UTL.compressedFileWriter AS_UTL.noFiles (some "-".toList) 1 =
      AS_UTL.Ctor.ok ⟨AS_UTL.Handle.stdout, false, true⟩ := by
  refine ⟨by decide, by decide, by decide, by decide⟩

namespace AS_UTL

theorem safeWriteLoop_bytes {α : Type} (buffer : List α) (size nobj length : Nat)
    (hs1 : 1 ≤ size) (hlength : length ≤ 32 * 1024 * 1024) (hmem : nobj * size < 2 ^ 63)
    (fuel : Nat) :
    ∀ (f f' : OStream α) (position : Nat), position ≤ nobj →
      safeWriteLoop OStream.fwrite buffer size nobj length fuel f position = Run.done f' →
      f'.bytes = f.bytes ++ (buffer.drop (position * size)).take ((nobj - position) * size) := by
  have hnobj : nobj < 2 ^ 63 := by
    have : nobj * 1 ≤ nobj * size := Nat.mul_le_mul_left _ hs1
    omega
  induction fuel with
  | zero =>
    intro f f' position _ h
    simp only [safeWriteLoop] at h
    cases h
  | succ fuel ih =>
    intro f f' position hle h
    rw [safeWriteLoop] at h
    by_cases hp : position < nobj
    · rw [if_pos hp] at h
      have hwrap : (position + length) % 2 ^ 64 = position + length :=
        Nat.mod_eq_of_lt (by omega)
      have hoff : (position * size) % 2 ^ 64 = position * size := by
        apply Nat.mod_eq_of_lt
        have : position * size ≤ nobj * size := Nat.mul_le_mul_right _ hle
        omega
      rw [hwrap, hoff] at h
      generalize ht : (if position + length > nobj then nobj - position else length) = t at h
      have htle : t ≤ nobj - position := by
        rw [← ht]; split <;> omega
      simp only [OStream.fwrite] at h
      generalize hk : min (f.accept f.calls t).1 t = k at h
      have hkle : k ≤ t := by rw [← hk]; exact Nat.min_le_right _ _
      by_cases he : (f.accept f.calls t).2 ≠ 0
      · rw [if_pos he] at h; cases h
      · rw [if_neg he] at h
        have hpk : (position + k) % 2 ^ 64 = position + k := Nat.mod_eq_of_lt (by omega)
        rw [hpk] at h
        have := ih _ f' (position + k) (by omega) h
        rw [this]
        simp only [List.append_assoc]
        congr 1
        have e1 : (nobj - position) * size = k * size + (nobj - (position + k)) * size := by
          rw [← Nat.add_mul]; congr 1; omega
        have e2 : (position + k) * size = position * size + k * size := Nat.add_mul _ _ _
        rw [e1, e2, List.take_add, List.drop_drop]
    · rw [if_neg hp] at h
      cases h
      have : nobj - position = 0 := by omega
      simp [this]

theorem safeWriteLoop_progress {α : Type} (buffer : List α) (size nobj length : Nat)
    (hl1 : 1 ≤ length) (hl2 : length ≤ 32 * 1024 * 1024) (hnobj : nobj < 2 ^ 63)
    (fuel : Nat) :
    ∀ (f : OStream α) (position : Nat),
      (∀ i n, 0 < n → 0 < (f.accept i n).1 ∧ (f.accept i n).2 = 0) →
      position ≤ nobj → nobj - position < fuel →
      ∃ f', safeWriteLoop OStream.fwrite buffer size nobj length fuel f position =
        Run.done f' := by
  induction fuel with
  | zero => intro f position _ _ h; omega
  | succ fuel ih =>
    intro f position hf hle hfuel
    rw [safeWriteLoop]
    by_cases hp : position < nobj
    · rw [if_pos hp]
      have hwrap : (position + length) % 2 ^ 64 = position + length :=
        Nat.mod_eq_of_lt (by omega)
      rw [hwrap]
      generalize ht : (if position + length > nobj then nobj - position else length) = t
      have ht1 : 1 ≤ t ∧ t ≤ nobj - position := by
        rw [← ht]; split <;> omega
      obtain ⟨hk1, he⟩ := hf f.calls t ht1.1
      simp only [OStream.fwrite]
      generalize hk : min (f.accept f.calls t).1 t = k
      have hk2 : 1 ≤ k ∧ k ≤ t := by
        rw [← hk]; exact ⟨Nat.le_min.mpr ⟨hk1, ht1.1⟩, Nat.min_le_right _ _⟩
      have hne : ¬ ((f.accept f.calls t).2 ≠ 0) := by rw [he]; simp
      rw [if_neg hne]
      have hpk : (position + k) % 2 ^ 64 = position + k := Nat.mod_eq_of_lt (by omega)
      rw [hpk]
      exact ih _ (position + k) hf (by omega) (by omega)
    · rw [if_neg hp]
      exact ⟨f, rfl⟩

end AS_UTL

/-- C1: for every element size from 1 byte to 32 MiB, every count `nobj` and every
buffer of `nobj * size` bytes (an object in memory, so below `2 ^ 63` bytes):
whatever number of whole elements each underlying write takes, a run of
`AS_UTL_safeWrite` that returns (no write reported an error) has extended the stream by
exactly the buffer, in order; and on a stream where every write reports no error and
takes at least one of the elements it is offered (all or only part of them),
`AS_UTL_safeWrite` does return, within `nobj` chunk writes (any fuel above `nobj`), with the stream extended by
exactly the buffer: the same bytes as one unchunked write of `nobj` elements. -/
theorem AS_UTL.safeWrite_chunking_transparent {α : Type} (buffer : List α)
    (size nobj fuel : Nat) (f : AS_UTL.OStream α)
    (hs1 : 1 ≤ size) (hs2 : size ≤ 32 * 1024 * 1024)
    (hbuf : buffer.length = nobj * size) (hmem : nobj * size < 2 ^ 63) :
    (∀ f', AS_UTL.AS_UTL_safeWrite AS_UTL.OStream.fwrite f buffer size nobj fuel =
        AS_UTL.Run.done f' → f'.bytes = f.bytes ++ buffer) ∧
    ((∀ i n, 0 < n → 0 < (f.accept i n).1 ∧ (f.accept i n).2 = 0) → nobj < fuel →
      ∃ f', AS_UTL.AS_UTL_safeWrite AS_UTL.OStream.fwrite f buffer size nobj fuel =
          AS_UTL.Run.done f' ∧
        f'.bytes = f.bytes ++ buffer ∧
        f'.bytes = (AS_UTL.OStream.fwrite { f with accept := AS_UTL.acceptAll }
          buffer size nobj).file.bytes) := by
  have hnobj : nobj < 2 ^ 63 := by
    have : nobj * 1 ≤ nobj * size := Nat.mul_le_mul_left _ hs1
    omega
  have hlength : 32 * 1024 * 1024 / size ≤ 32 * 1024 * 1024 := Nat.div_le_self _ _
  have hbytes : ∀ f', AS_UTL.AS_UTL_safeWrite AS_UTL.OStream.fwrite f buffer size nobj fuel =
      AS_UTL.Run.done f' → f'.bytes = f.bytes ++ buffer := by
    intro f' h
    have h1 := AS_UTL.safeWriteLoop_bytes buffer size nobj _ hs1 hlength hmem fuel f f' 0
      (Nat.zero_le _) h
    rw [h1]
    simp only [Nat.zero_mul, List.drop_zero, Nat.sub_zero]
    rw [← hbuf, List.take_length]
  refine ⟨hbytes, ?_⟩
  intro hprog hfuel
  obtain ⟨f', hf'⟩ := AS_UTL.safeWriteLoop_progress buffer size nobj _ (Nat.div_pos hs2 hs1)
    hlength hnobj fuel f 0 hprog (Nat.zero_le _) (by omega)
  refine ⟨f', hf', hbytes f' hf', ?_⟩
  rw [hbytes f' hf']
  simp only [AS_UTL.OStream.fwrite, AS_UTL.acceptAll, Nat.min_self]
  rw [← hbuf, List.take_length]

/-- Witness of C1: three 2-byte elements written to a stream that takes one element per
call: `AS_UTL_safeWrite` returns after three writes with the six bytes appended. -/
theorem AS_UTL.safeWrite_chunking_transparent_witness :
    (1 ≤ 2 ∧ 2 ≤ 32 * 1024 * 1024 ∧ [1, 2, 3, 4, 5, 6].length = 3 * 2 ∧ 3 < 4) ∧
    ∃ f', AS_UTL.AS_UTL_safeWrite AS_UTL.OStream.fwrite
        (⟨[9], 0, fun _ _ => (1, 0)⟩ : AS_UTL.OStream Nat) [1, 2, 3, 4, 5, 6] 2 3 4 =
          AS_UTL.Run.done f' ∧
      f'.bytes = [9, 1, 2, 3, 4, 5, 6] ∧
      f'.bytes = (AS_UTL.OStream.fwrite
        (⟨[9], 0, AS_UTL.acceptAll⟩ : AS_UTL.OStream Nat) [1, 2, 3, 4, 5, 6] 2 3).file.bytes :=
  ⟨⟨by decide, by decide, rfl, by decide⟩,
    (AS_UTL.safeWrite_chunking_transparent [1, 2, 3, 4, 5, 6] 2 3 4
      ⟨[9], 0, fun _ _ => (1, 0)⟩ (by decide) (by decide) rfl (by norm_num)).2
      (fun _ _ _ => ⟨Nat.one_pos, rfl⟩) (by decide)⟩

namespace AS_UTL

theorem safeWriteLoop_stalls {α : Type} (buffer : List α) (size nobj : Nat)
    (hn : 0 < nobj) (fuel : Nat) :
    ∀ (f : OStream α), f.accept = acceptAll →
      safeWriteLoop OStream.fwrite buffer size nobj 0 fuel f 0 = Run.fuel := by
  induction fuel with
  | zero => intro f _; rfl
  | succ fuel ih =>
    intro f hf
    rw [safeWriteLoop, if_pos hn]
    have h0 : ¬ ((0 + 0) % 2 ^ 64 > nobj) := by simp
    simp only [if_neg h0, OStream.fwrite, hf, acceptAll, Nat.min_self, ne_eq,
      not_true_eq_false, if_false, Nat.zero_mul, List.take_zero, List.append_nil]
    exact ih _ rfl

theorem safeWriteLoop_returns {α : Type} (buffer : List α) (size nobj length : Nat)
    (hl1 : 1 ≤ length) (hl2 : length ≤ 32 * 1024 * 1024) (hnobj : nobj < 2 ^ 63)
    (fuel : Nat) :
    ∀ (f : OStream α) (position : Nat), f.accept = acceptAll → position ≤ nobj →
      nobj - position < fuel →
      ∃ f', safeWriteLoop OStream.fwrite buffer size nobj length fuel f position =
        Run.done f' := by
  induction fuel with
  | zero => intro f position _ _ h; omega
  | succ fuel ih =>
    intro f position hf hle hfuel
    rw [safeWriteLoop]
    by_cases hp : position < nobj
    · rw [if_pos hp]
      have hwrap : (position + length) % 2 ^ 64 = position + length :=
        Nat.mod_eq_of_lt (by omega)
      rw [hwrap]
      generalize ht : (if position + length > nobj then nobj - position else length) = t
      have ht1 : 1 ≤ t ∧ t ≤ nobj - position := by
        rw [← ht]; split <;> omega
      simp only [OStream.fwrite, hf, acceptAll, Nat.min_self, ne_eq, not_true_eq_false,
        if_false]
      have hpk : (position + t) % 2 ^ 64 = position + t := Nat.mod_eq_of_lt (by omega)
      rw [hpk]
      exact ih _ (position + t) rfl (by omega) (by omega)
    · rw [if_neg hp]
      exact ⟨f, rfl⟩

/-- For element sizes from 1 byte to 32 MiB, a stream that takes every write whole
makes `AS_UTL_safeWrite` return, within `nobj` chunk writes. -/
theorem safeWrite_returns {α : Type} (buffer : List α) (size nobj fuel : Nat)
    (bytes : List α) (calls : Nat) (hs1 : 1 ≤ size) (hs2 : size ≤ 32 * 1024 * 1024)
    (hmem : nobj * size < 2 ^ 63) (hfuel : nobj < fuel) :
    ∃ f', AS_UTL_safeWrite OStream.fwrite ⟨bytes, calls, acceptAll⟩ buffer size nobj fuel =
      Run.done f' := by
  have hnobj : nobj < 2 ^ 63 := by
    have : nobj * 1 ≤ nobj * size := Nat.mul_le_mul_left _ hs1
    omega
  exact safeWriteLoop_returns buffer size nobj _ (Nat.div_pos hs2 hs1)
    (Nat.div_le_self _ _) hnobj fuel _ 0 rfl (Nat.zero_le _) (by omega)

end AS_UTL

/-- C9: for the element size 32 MiB + 1 and one element, on a stream that takes every
write whole and reports no error, the chunk capacity `32 * 1024 * 1024 / size` is 0, so
every underlying write is asked for 0 elements and `position` stays 0: the loop of
`AS_UTL_safeWrite` is still running after any number of iterations. -/
theorem AS_UTL.safeWrite_never_returns_above_32MiB {α : Type} (buffer bytes : List α)
    (calls fuel : Nat) :
    AS_UTL.AS_UTL_safeWrite AS_UTL.OStream.fwrite ⟨bytes, calls, AS_UTL.acceptAll⟩ buffer
      (32 * 1024 * 1024 + 1) 1 fuel = AS_UTL.Run.fuel := by
  unfold AS_UTL.AS_UTL_safeWrite
  have h : 32 * 1024 * 1024 / (32 * 1024 * 1024 + 1) = 0 := by norm_num
  rw [h]
  exact AS_UTL.safeWriteLoop_stalls buffer _ 1 Nat.one_pos fuel _ rfl

namespace AS_UTL

theorem blit_length {α : Type} (buffer data : List α) (off : Nat)
    (h : off + data.length ≤ buffer.length) :
    (blit buffer off data).length = buffer.length := by
  simp only [blit, List.length_append, List.length_take, List.length_drop]
  omega

theorem blit_take {α : Type} (buffer src : List α) (off m j : Nat)
    (hoff : off ≤ buffer.length) (hpre : buffer.take off = src.take off)
    (hj : j ≤ ((src.drop off).take m).length) :
    (blit buffer off ((src.drop off).take m)).take (off + j) = src.take (off + j) := by
  have hlen : (src.take off).length = off := by
    rw [← hpre, List.length_take]; omega
  have hjm : j ≤ m := by
    rw [List.length_take] at hj; omega
  have happ := @List.take_append _ (src.take off)
    ((src.drop off).take m ++ buffer.drop (off + ((src.drop off).take m).length)) j
  rw [hlen] at happ
  unfold blit
  rw [hpre, List.append_assoc, happ, List.take_append_of_le_length hj, List.take_take,
    Nat.min_eq_left hjm, List.take_add]

theorem safeReadLoop_stream {α : Type} (data : List α) (eager : Bool)
    (size N length : Nat) (hs1 : 1 ≤ size) (hl1 : 1 ≤ length)
    (hl2 : length ≤ 32 * 1024 * 1024) (hmem : N * size < 2 ^ 63) (fuel : Nat) :
    ∀ (p : Nat) (buffer : List α) (log : List Chunk),
      p ≤ N → p ≤ data.length / size → N - p < fuel →
      buffer.length = N * size → buffer.take (p * size) = data.take (p * size) →
      ∃ buffer' file',
        (safeReadLoop IStream.fread size N length fuel
          ⟨data.drop (p * size), false, [], eager⟩ buffer p log).run =
          Run.done (min (data.length / size) N, buffer', file') ∧
        buffer'.length = N * size ∧
        buffer'.take (min (data.length / size) N * size) =
          data.take (min (data.length / size) N * size) := by
  have hN : N < 2 ^ 63 := by
    have : N * 1 ≤ N * size := Nat.mul_le_mul_left _ hs1
    omega
  have hs0 : 0 < size := hs1
  induction fuel with
  | zero => intro p buffer log _ _ h; omega
  | succ fuel ih =>
    intro p buffer log hpN hpK hfuel hblen hbpre
    have hpL : p * size ≤ data.length := (Nat.le_div_iff_mul_le hs0).mp hpK
    rw [safeReadLoop]
    by_cases hp : p < N
    · rw [if_pos hp]
      have hwrap : (p + length) % 2 ^ 64 = p + length := Nat.mod_eq_of_lt (by omega)
      have hpN' : p * size ≤ N * size := Nat.mul_le_mul_right _ hpN
      have hoff : (p * size) % 2 ^ 64 = p * size := Nat.mod_eq_of_lt (by omega)
      rw [hwrap, hoff]
      generalize ht : (if p + length > N then N - p else length) = t
      have ht1 : 1 ≤ t ∧ t ≤ N - p := by
        rw [← ht]; split <;> omega
      have htN : (p + t) * size ≤ N * size := Nat.mul_le_mul_right _ (by omega)
      have hpt : (p + t) * size = p * size + t * size := Nat.add_mul _ _ _
      simp only [IStream.fread]
      have hgl : (List.take (t * size) (List.drop (p * size) data)).length =
          min (t * size) (data.length - p * size) := by
        rw [List.length_take, List.length_drop]
      have hrest : List.drop (t * size) (List.drop (p * size) data) =
          List.drop ((p + t) * size) data := by
        rw [List.drop_drop, hpt]
      rw [hrest]
      generalize hgot : List.take (t * size) (List.drop (p * size) data) = got at hgl ⊢
      generalize he : (false || decide (got.length < t * size) ||
          eager && (List.drop ((p + t) * size) data).isEmpty) = e
      generalize hc : got.length / size = c
      have hgle : got.length ≤ t * size := by rw [hgl]; exact Nat.min_le_left _ _
      have hcle : c * size ≤ got.length := by rw [← hc]; exact Nat.div_mul_le_self _ _
      have hct : c ≤ t := by
        rw [← hc]; exact Nat.div_le_of_le_mul (by rw [Nat.mul_comm]; exact hgle)
      have hpc : (p + c) % 2 ^ 64 = p + c := Nat.mod_eq_of_lt (by omega)
      have hpcs : (p + c) * size = p * size + c * size := Nat.add_mul _ _ _
      have hblen' : (blit buffer (p * size) got).length = N * size := by
        rw [blit_length _ _ _ (by omega), hblen]
      have hbtake : (blit buffer (p * size) got).take ((p + c) * size) =
          data.take ((p + c) * size) := by
        rw [hpcs, ← hgot]
        exact blit_take buffer data (p * size) (t * size) (c * size) (by omega) hbpre
          (by rw [hgot]; exact hcle)
      have hfull : t * size ≤ data.length - p * size →
          got.length = t * size ∧ c = t ∧ p + t ≤ data.length / size := by
        intro hA
        have h1 : got.length = t * size := by rw [hgl]; exact Nat.min_eq_left hA
        refine ⟨h1, ?_, ?_⟩
        · rw [← hc, h1]; exact Nat.mul_div_cancel _ hs0
        · rw [Nat.le_div_iff_mul_le hs0]; omega
      have hshort : data.length - p * size < t * size →
          e = true ∧ p + c = data.length / size ∧ data.length / size < p + t := by
        intro hB
        have h1 : got.length = data.length - p * size := by
          rw [hgl]; exact Nat.min_eq_right (by omega)
        refine ⟨?_, ?_, ?_⟩
        · rw [← he]
          have : got.length < t * size := by omega
          simp [this]
        · rw [← hc, h1, Nat.mul_comm p size,
            Nat.sub_mul_div _ _ _ (by rw [Nat.mul_comm]; exact hpL)]
          omega
        · rw [Nat.div_lt_iff_lt_mul hs0]; omega
      rw [hpc]
      by_cases hcond : (e || c == 0) = true
      · rw [if_pos hcond]
        have hpos : p + c = min (data.length / size) N := by
          by_cases hA : t * size ≤ data.length - p * size
          · obtain ⟨h1, h2, h3⟩ := hfull hA
            have he1 : e = true := by
              simp only [Bool.or_eq_true, beq_iff_eq] at hcond
              rcases hcond with h | h
              · exact h
              · omega
            rw [← he] at he1
            have hng : ¬ got.length < t * size := by omega
            simp only [Bool.false_or, hng, decide_False, Bool.and_eq_true,
              List.isEmpty_iff, List.drop_eq_nil_iff] at he1
            have hL : data.length = (p + t) * size := by
              have := (Nat.le_div_iff_mul_le hs0).mp h3
              omega
            have hK : data.length / size = p + t := by
              rw [hL]; exact Nat.mul_div_cancel _ hs0
            omega
          · obtain ⟨_, h2, h3⟩ := hshort (by omega)
            omega
        rw [← hpos]
        exact ⟨_, _, rfl, hblen', hbtake⟩
      · rw [if_neg hcond]
        simp only [Bool.or_eq_true, beq_iff_eq, not_or, Bool.not_eq_true] at hcond
        obtain ⟨he0, hc0⟩ := hcond
        have hA : t * size ≤ data.length - p * size := by
          by_contra hB
          have := (hshort (by omega)).1
          rw [he0] at this
          cases this
        obtain ⟨_, h2, h3⟩ := hfull hA
        have herr : ¬ ((decide (0 ≠ 0) && decide (0 ≠ EINTR)) = true) := by simp
        rw [if_neg herr, he0, h2, List.tail_nil]
        exact ih (p + t) _ _ (by omega) h3 (by omega) hblen' (by rw [← h2]; exact hbtake)
    · rw [if_neg hp]
      have hmin : min (data.length / size) N = p := by omega
      rw [hmin]
      exact ⟨buffer, _, rfl, hblen, hbpre⟩

end AS_UTL

/-- C2: for every element size from 1 byte to 32 MiB and every request of `N` elements
into a buffer of `N * size` bytes (an object in memory, so below `2 ^ 63` bytes), on an
error-free stream that holds `K = data.length / size` whole elements before
end-of-file, `AS_UTL_safeRead` returns (any fuel above `N` suffices) exactly
`min K N`, and the first `min K N` elements of the buffer are those of the stream, in
order; this holds whether or not the library raises the end-of-file indicator on the
read that consumes the last byte, and whether or not `K` is a multiple of the chunk
capacity. -/
theorem AS_UTL.safeRead_short_read {α : Type} (data buffer : List α) (eager : Bool)
    (size N fuel : Nat) (hs1 : 1 ≤ size) (hs2 : size ≤ 32 * 1024 * 1024)
    (hbuf : buffer.length = N * size) (hmem : N * size < 2 ^ 63) (hfuel : N < fuel) :
    ∃ buffer' file',
      (AS_UTL.AS_UTL_safeRead AS_UTL.IStream.fread ⟨data, false, [], eager⟩ buffer size N
        fuel).run = AS_UTL.Run.done (min (data.length / size) N, buffer', file') ∧
      buffer'.length = N * size ∧
      buffer'.take (min (data.length / size) N * size) =
        data.take (min (data.length / size) N * size) := by
  have h := AS_UTL.safeReadLoop_stream data eager size N (32 * 1024 * 1024 / size) hs1
    (Nat.div_pos hs2 hs1) (Nat.div_le_self _ _) hmem fuel 0 buffer [] (Nat.zero_le _)
    (Nat.zero_le _) (by omega) hbuf (by simp)
  simpa [AS_UTL.AS_UTL_safeRead] using h

/-- Witness of C2: four 2-byte elements requested from a stream of seven bytes. -/
theorem AS_UTL.safeRead_short_read_witness :
    (1 ≤ 2 ∧ 2 ≤ 32 * 1024 * 1024 ∧ [0, 0, 0, 0, 0, 0, 0, 0].length = 4 * 2) ∧
    ∃ buffer' file',
      (AS_UTL.AS_UTL_safeRead AS_UTL.IStream.fread
        (⟨[1, 2, 3, 4, 5, 6, 7], false, [], false⟩ : AS_UTL.IStream Nat)
        [0, 0, 0, 0, 0, 0, 0, 0] 2 4 5).run = AS_UTL.Run.done (3, buffer', file') ∧
      buffer'.length = 8 ∧ buffer'.take 6 = [1, 2, 3, 4, 5, 6] :=
  ⟨⟨by decide, by decide, rfl⟩,
    AS_UTL.safeRead_short_read [1, 2, 3, 4, 5, 6, 7] [0, 0, 0, 0, 0, 0, 0, 0] false 2 4 5
      (by decide) (by decide) rfl (by norm_num) (by decide)⟩

namespace AS_UTL

theorem strcasecmp_eq_zero_iff (s t : List Char) :
    strcasecmp s t = 0 ↔ s.map Char.toLower = t.map Char.toLower := by
  induction s generalizing t with
  | nil => cases t <;> simp [strcasecmp]
  | cons c s ih =>
    cases t with
    | nil => simp [strcasecmp]
    | cons d t =>
      rw [strcasecmp]
      by_cases h : c.toLower = d.toLower
      · rw [if_pos h, ih]; simp [h]
      · rw [if_neg h]
        have : (if c.toLower < d.toLower then (-1 : Int) else 1) ≠ 0 := by
          split <;> decide
        simp [this, h]

theorem strcmp_eq_zero_iff (s t : List Char) : strcmp s t = 0 ↔ s = t := by
  induction s generalizing t with
  | nil => cases t <;> simp [strcmp]
  | cons c s ih =>
    cases t with
    | nil => simp [strcmp]
    | cons d t =>
      rw [strcmp]
      by_cases h : c = d
      · rw [if_pos h, ih]; simp [h]
      · rw [if_neg h]
        have : (if c < d then (-1 : Int) else 1) ≠ 0 := by
          split <;> decide
        simp [this, h]

theorem toInt32_of_lt (n : Nat) (h : n < 2 ^ 31) : toInt32 n = (n : Int) := by
  unfold toInt32
  omega

/-- The suffix test of the constructors, on natural numbers. -/
theorem endsWithNoCase_iff (name sfx : List Char) :
    EndsWithNoCase name sfx ↔
      sfx.length < name.length ∧
        (name.map Char.toLower).drop (name.length - sfx.length) = sfx := by
  constructor
  · rintro ⟨stem, tail, hstem, rfl, htail⟩
    have hl : tail.length = sfx.length := by rw [← htail, List.length_map]
    have hs : 0 < stem.length := List.length_pos.mpr hstem
    refine ⟨by rw [List.length_append]; omega, ?_⟩
    rw [List.map_append, htail, List.length_append, hl, Nat.add_sub_cancel]
    have : stem.length = (List.map Char.toLower stem).length := by rw [List.length_map]
    rw [this, List.drop_left]
  · rintro ⟨hlen, hdrop⟩
    refine ⟨name.take (name.length - sfx.length), name.drop (name.length - sfx.length),
      ?_, (List.take_append_drop _ _).symm, ?_⟩
    · intro h
      have := congrArg List.length h
      rw [List.length_take, List.length_nil] at this
      omega
    · rw [List.map_drop]; exact hdrop

theorem suffix_test (name sfx : List Char) (hlow : sfx.map Char.toLower = sfx) :
    (sfx.length < name.length ∧ strcasecmp (name.drop (name.length - sfx.length)) sfx = 0) ↔
      EndsWithNoCase name sfx := by
  rw [endsWithNoCase_iff name sfx, strcasecmp_eq_zero_iff, hlow, List.map_drop]

theorem gz_excludes (name : List Char) (hg : EndsWithNoCase name ".gz".toList) :
    ¬ EndsWithNoCase name ".bz2".toList ∧ ¬ EndsWithNoCase name ".xz".toList ∧
    name ≠ [] ∧ name ≠ "-".toList := by
  rw [endsWithNoCase_iff] at hg
  obtain ⟨hl, hd⟩ := hg
  have h3 : (".gz".toList : List Char).length = 3 := by decide
  rw [h3] at hl hd
  refine ⟨?_, ?_, ?_, ?_⟩
  · rw [endsWithNoCase_iff]
    rintro ⟨hl2, hd2⟩
    have h4 : (".bz2".toList : List Char).length = 4 := by decide
    rw [h4] at hl2 hd2
    have := congrArg (List.drop 1) hd2
    rw [List.drop_drop] at this
    have e : name.length - 4 + 1 = name.length - 3 := by omega
    rw [e, hd] at this
    exact absurd this (by decide)
  · rw [endsWithNoCase_iff]
    rintro ⟨_, hd2⟩
    have h4 : (".xz".toList : List Char).length = 3 := by decide
    rw [h4, hd] at hd2
    exact absurd hd2 (by decide)
  · rintro rfl; simp at hl
  · rintro rfl; revert hl; decide

theorem bz2_excludes (name : List Char) (hb : EndsWithNoCase name ".bz2".toList) :
    ¬ EndsWithNoCase name ".xz".toList ∧ name ≠ [] ∧ name ≠ "-".toList := by
  rw [endsWithNoCase_iff] at hb
  obtain ⟨hl, hd⟩ := hb
  have h4 : (".bz2".toList : List Char).length = 4 := by decide
  rw [h4] at hl hd
  refine ⟨?_, ?_, ?_⟩
  · rw [endsWithNoCase_iff]
    rintro ⟨_, hd2⟩
    have h3 : (".xz".toList : List Char).length = 3 := by decide
    rw [h3] at hd2
    have := congrArg (List.drop 1) hd
    rw [List.drop_drop] at this
    have e : name.length - 4 + 1 = name.length - 3 := by omega
    rw [e, hd2] at this
    exact absurd this (by decide)
  · rintro rfl; simp at hl
  · rintro rfl; revert hl; decide

theorem xz_excludes (name : List Char) (hx : EndsWithNoCase name ".xz".toList) :
    name ≠ [] ∧ name ≠ "-".toList := by
  rw [endsWithNoCase_iff] at hx
  obtain ⟨hl, _⟩ := hx
  have h3 : (".xz".toList : List Char).length = 3 := by decide
  rw [h3] at hl
  refine ⟨?_, ?_⟩
  · rintro rfl; simp at hl
  · rintro rfl; revert hl; decide

/-- The branch taken by both constructors, as a function of the four tests. -/
theorem routed_of_tests (name : List Char) (tr : Transport) (G B X S : Prop)
    [Decidable G] [Decidable B] [Decidable X] [Decidable S]
    (hG : G ↔ EndsWithNoCase name ".gz".toList)
    (hB : B ↔ EndsWithNoCase name ".bz2".toList)
    (hX : X ↔ EndsWithNoCase name ".xz".toList)
    (hS : S ↔ (name = [] ∨ name = "-".toList))
    (h : tr = if G then Transport.pipe "gzip".toList
      else if B then Transport.pipe "bzip2".toList
      else if X then Transport.pipe "xz".toList
      else if S then Transport.standard else Transport.direct) :
    Routed name tr := by
  subst h
  by_cases hg : G
  · obtain ⟨h1, h2, h3, h4⟩ := gz_excludes name (hG.mp hg)
    rw [if_pos hg]
    refine ⟨fun _ => rfl, fun h => absurd h h1, fun h => absurd h h2, ?_, ?_⟩
    · rintro (h | h)
      · exact absurd h h3
      · exact absurd h h4
    · intro h; exact absurd (hG.mp hg) h
  · rw [if_neg hg]
    have hg' : ¬ EndsWithNoCase name ".gz".toList := fun h => hg (hG.mpr h)
    by_cases hb : B
    · obtain ⟨h2, h3, h4⟩ := bz2_excludes name (hB.mp hb)
      rw [if_pos hb]
      refine ⟨fun h => absurd h hg', fun _ => rfl, fun h => absurd h h2, ?_, ?_⟩
      · rintro (h | h)
        · exact absurd h h3
        · exact absurd h h4
      · intro _ h; exact absurd (hB.mp hb) h
    · rw [if_neg hb]
      have hb' : ¬ EndsWithNoCase name ".bz2".toList := fun h => hb (hB.mpr h)
      by_cases hx : X
      · obtain ⟨h3, h4⟩ := xz_excludes name (hX.mp hx)
        rw [if_pos hx]
        refine ⟨fun h => absurd h hg', fun h => absurd h hb', fun _ => rfl, ?_, ?_⟩
        · rintro (h | h)
          · exact absurd h h3
          · exact absurd h h4
        · intro _ _ h; exact absurd (hX.mp hx) h
      · rw [if_neg hx]
        have hx' : ¬ EndsWithNoCase name ".xz".toList := fun h => hx (hX.mpr h)
        by_cases hs : S
        · rw [if_pos hs]
          refine ⟨fun h => absurd h hg', fun h => absurd h hb', fun h => absurd h hx',
            fun _ => rfl, ?_⟩
          intro _ _ _ h1 h2
          rcases hS.mp hs with h | h
          · exact absurd h h1
          · exact absurd h h2
        · rw [if_neg hs]
          refine ⟨fun h => absurd h hg', fun h => absurd h hb', fun h => absurd h hx',
            fun h => absurd (hS.mpr h) hs, fun _ _ _ _ _ => rfl⟩

theorem ctor_ok_inv (c1 c2 : Prop) [Decidable c1] [Decidable c2] (f r : CompressedFile)
    (h : (if c1 then Ctor.missingInput else if c2 then Ctor.openFailed else Ctor.ok f) =
      Ctor.ok r) : r = f := by
  by_cases h1 : c1
  · rw [if_pos h1] at h; cases h
  · rw [if_neg h1] at h
    by_cases h2 : c2
    · rw [if_pos h2] at h; cases h
    · rw [if_neg h2] at h; cases h; rfl

theorem reader_transport (os : OS) (name : List Char) (r : CompressedFile)
    (hlen : name.length < 2 ^ 31) (h : compressedFileReader os (some name) = Ctor.ok r) :
    (r.transport =
      if 3 < name.length ∧ strcasecmp (name.drop (name.length - 3)) ".gz".toList = 0 then
        Transport.pipe "gzip".toList
      else if 4 < name.length ∧
          strcasecmp (name.drop (name.length - 4)) ".bz2".toList = 0 then
        Transport.pipe "bzip2".toList
      else if 3 < name.length ∧
          strcasecmp (name.drop (name.length - 3)) ".xz".toList = 0 then
        Transport.pipe "xz".toList
      else if name.length = 0 ∨ strcmp name "-".toList = 0 then Transport.standard
      else Transport.direct) ∧
    ¬ (r._pipe = true ∧ r._stdi = true) := by
  have e3 : ((name.length : Int) - 3).toNat = name.length - 3 := by omega
  have e4 : ((name.length : Int) - 4).toNat = name.length - 4 := by omega
  have c3 : ((name.length : Int) > 3) = (3 < name.length) := by
    apply propext; omega
  have c4 : ((name.length : Int) > 4) = (4 < name.length) := by
    apply propext; omega
  have c0 : ((name.length : Int) = 0) = (name.length = 0) := by
    apply propext; omega
  unfold compressedFileReader at h
  simp only [toInt32_of_lt _ hlen, Option.getD_some, e3, e4, c3, c4, c0] at h
  have hr := ctor_ok_inv _ _ _ _ h
  subst hr
  by_cases hG : 3 < name.length ∧
      strcasecmp (name.drop (name.length - 3)) ".gz".toList = 0
  · simp only [if_pos hG]
    exact ⟨rfl, by simp⟩
  · simp only [if_neg hG]
    by_cases hB : 4 < name.length ∧
        strcasecmp (name.drop (name.length - 4)) ".bz2".toList = 0
    · simp only [if_pos hB]
      exact ⟨rfl, by simp⟩
    · simp only [if_neg hB]
      by_cases hX : 3 < name.length ∧
          strcasecmp (name.drop (name.length - 3)) ".xz".toList = 0
      · simp only [if_pos hX]
        exact ⟨rfl, by simp⟩
      · simp only [if_neg hX]
        by_cases hS : name.length = 0 ∨ strcmp name "-".toList = 0
        · simp only [if_pos hS]
          exact ⟨rfl, by simp⟩
        · simp only [if_neg hS]
          exact ⟨rfl, by simp⟩

theorem writer_transport (os : OS) (name : List Char) (level : Int) (w : CompressedFile)
    (hlen : name.length < 2 ^ 31)
    (h : compressedFileWriter os (some name) level = Ctor.ok w) :
    (w.transport =
      if 3 < name.length ∧ strcasecmp (name.drop (name.length - 3)) ".gz".toList = 0 then
        Transport.pipe "gzip".toList
      else if 4 < name.length ∧
          strcasecmp (name.drop (name.length - 4)) ".bz2".toList = 0 then
        Transport.pipe "bzip2".toList
      else if 3 < name.length ∧
          strcasecmp (name.drop (name.length - 3)) ".xz".toList = 0 then
        Transport.pipe "xz".toList
      else if name.length = 0 ∨ strcmp name "-".toList = 0 then Transport.standard
      else Transport.direct) ∧
    ¬ (w._pipe = true ∧ w._stdi = true) := by
  have e3 : ((name.length : Int) - 3).toNat = name.length - 3 := by omega
  have e4 : ((name.length : Int) - 4).toNat = name.length - 4 := by omega
  have c3 : ((name.length : Int) > 3) = (3 < name.length) := by
    apply propext; omega
  have c4 : ((name.length : Int) > 4) = (4 < name.length) := by
    apply propext; omega
  have c0 : ((name.length : Int) = 0) = (name.length = 0) := by
    apply propext; omega
  unfold compressedFileWriter at h
  simp only [toInt32_of_lt _ hlen, Option.getD_some, e3, e4, c3, c4, c0] at h
  have hw := ctor_ok_inv False _ _ _ (by rw [if_neg not_false]; exact h)
  subst hw
  by_cases hG : 3 < name.length ∧
      strcasecmp (name.drop (name.length - 3)) ".gz".toList = 0
  · simp only [if_pos hG]
    exact ⟨rfl, by simp⟩
  · simp only [if_neg hG]
    by_cases hB : 4 < name.length ∧
        strcasecmp (name.drop (name.length - 4)) ".bz2".toList = 0
    · simp only [if_pos hB]
      exact ⟨rfl, by simp⟩
    · simp only [if_neg hB]
      by_cases hX : 3 < name.length ∧
          strcasecmp (name.drop (name.length - 3)) ".xz".toList = 0
      · simp only [if_pos hX]
        exact ⟨rfl, by simp⟩
      · simp only [if_neg hX]
        by_cases hS : name.length = 0 ∨ strcmp name "-".toList = 0
        · simp only [if_pos hS]
          exact ⟨rfl, by simp⟩
        · simp only [if_neg hS]
          exact ⟨rfl, by simp⟩

theorem routed_of_code (name : List Char) (tr : Transport)
    (h : tr =
      if 3 < name.length ∧ strcasecmp (name.drop (name.length - 3)) ".gz".toList = 0 then
        Transport.pipe "gzip".toList
      else if 4 < name.length ∧
          strcasecmp (name.drop (name.length - 4)) ".bz2".toList = 0 then
        Transport.pipe "bzip2".toList
      else if 3 < name.length ∧
          strcasecmp (name.drop (name.length - 3)) ".xz".toList = 0 then
        Transport.pipe "xz".toList
      else if name.length = 0 ∨ strcmp name "-".toList = 0 then Transport.standard
      else Transport.direct) : Routed name tr := by
  refine routed_of_tests name tr _ _ _ _ (suffix_test name ".gz".toList (by decide))
    (suffix_test name ".bz2".toList (by decide)) (suffix_test name ".xz".toList (by decide))
    ?_ h
  rw [strcmp_eq_zero_iff, List.length_eq_zero]

end AS_UTL

/-- C3 (amended): for every file name (shorter than `2 ^ 31` characters, the range of
`int32 len`) for which construction does not abort, `compressedFileReader` and
`compressedFileWriter` select the same transport, a function of the name alone: a name
whose end, after a non-empty stem, equals `.gz`, `.bz2` or `.xz` ignoring case selects a
pipe to `gzip`, `bzip2` or `xz`; the empty name, the null name and `-` select the
standard stream; every other name selects a direct open; the `_pipe` and `_stdi` flags
are never both set. -/
theorem AS_UTL.suffix_routing (os : AS_UTL.OS) (name : List Char) (level : Int)
    (hlen : name.length < 2 ^ 31) :
    (∀ r, AS_UTL.compressedFileReader os (some name) = AS_UTL.Ctor.ok r →
      AS_UTL.Routed name r.transport ∧ ¬ (r._pipe = true ∧ r._stdi = true)) ∧
    (∀ w, AS_UTL.compressedFileWriter os (some name) level = AS_UTL.Ctor.ok w →
      AS_UTL.Routed name w.transport ∧ ¬ (w._pipe = true ∧ w._stdi = true)) ∧
    (∀ r w, AS_UTL.compressedFileReader os (some name) = AS_UTL.Ctor.ok r →
      AS_UTL.compressedFileWriter os (some name) level = AS_UTL.Ctor.ok w →
      r.transport = w.transport) ∧
    AS_UTL.compressedFileReader os none = AS_UTL.Ctor.ok ⟨AS_UTL.Handle.stdin, false, true⟩ ∧
    AS_UTL.compressedFileWriter os none level =
      AS_UTL.Ctor.ok ⟨AS_UTL.Handle.stdout, false, true⟩ := by
  refine ⟨?_, ?_, ?_, ?_, ?_⟩
  · intro r hr
    have h := AS_UTL.reader_transport os name r hlen hr
    exact ⟨AS_UTL.routed_of_code name _ h.1, h.2⟩
  · intro w hw
    have h := AS_UTL.writer_transport os name level w hlen hw
    exact ⟨AS_UTL.routed_of_code name _ h.1, h.2⟩
  · intro r w hr hw
    rw [(AS_UTL.reader_transport os name r hlen hr).1,
      (AS_UTL.writer_transport os name level w hlen hw).1]
  · simp [AS_UTL.compressedFileReader, AS_UTL.OS.errnoAfter]
  · simp [AS_UTL.compressedFileWriter, AS_UTL.OS.errnoAfter]

/-- Witness of C3 at the six names of the spec, with every input file present: pipe,
pipe, pipe, direct, standard, standard. -/
theorem AS_UTL.suffix_routing_witness :
    "a.gz".toList.length < 2 ^ 31 ∧
    (∀ r, AS_UTL.compressedFileReader AS_UTL.allPresent (some "a.gz".toList) =
        AS_UTL.Ctor.ok r →
      AS_UTL.Routed "a.gz".toList r.transport ∧ ¬ (r._pipe = true ∧ r._stdi = true)) ∧
    (AS_UTL.compressedFileReader AS_UTL.allPresent (some "a.gz".toList) =
      AS_UTL.Ctor.ok ⟨AS_UTL.Handle.popen "gzip -dc a.gz".toList 'r', true, false⟩ ∧
     AS_UTL.compressedFileReader AS_UTL.allPresent (some "a.bz2".toList) =
      AS_UTL.Ctor.ok ⟨AS_UTL.Handle.popen "bzip2 -dc a.bz2".toList 'r', true, false⟩ ∧
     AS_UTL.compressedFileReader AS_UTL.allPresent (some "a.xz".toList) =
      AS_UTL.Ctor.ok ⟨AS_UTL.Handle.popen "xz -dc a.xz".toList 'r', true, false⟩ ∧
     AS_UTL.compressedFileReader AS_UTL.allPresent (some "a.raw".toList) =
      AS_UTL.Ctor.ok ⟨AS_UTL.Handle.fopen "a.raw".toList 'r', false, false⟩ ∧
     AS_UTL.compressedFileReader AS_UTL.allPresent (some "".toList) =
      AS_UTL.Ctor.ok ⟨AS_UTL.Handle.stdin, false, true⟩ ∧
     AS_UTL.compressedFileReader AS_UTL.allPresent (some "-".toList) =
      AS_UTL.Ctor.ok ⟨AS_UTL.Handle.stdin, false, true⟩) :=
  ⟨by decide,
    (AS_UTL.suffix_routing AS_UTL.allPresent "a.gz".toList 6 (by decide)).1,
    by decide, by decide, by decide, by decide, by decide, by decide⟩

/-- C3, counterexample: the name `a.GZ` does not end in `.gz`, `.bz2` or `.xz`, is not
empty and is not `-`, yet both constructors succeed with a pipe to `gzip`, not a direct
open: the suffix is compared with `strcasecmp`. -/
theorem AS_UTL.suffix_routing_counterexample :
    ¬ List.IsSuffix ".gz".toList "a.GZ".toList ∧
    ¬ List.IsSuffix ".bz2".toList "a.GZ".toList ∧
    ¬ List.IsSuffix ".xz".toList "a.GZ".toList ∧
    "a.GZ".toList ≠ [] ∧ "a.GZ".toList ≠ "-".toList ∧
    AS_UTL.compressedFileReader AS_UTL.allPresent (some "a.GZ".toList) =
      AS_UTL.Ctor.ok ⟨AS_UTL.Handle.popen "gzip -dc a.GZ".toList 'r', true, false⟩ ∧
    AS_UTL.compressedFileWriter AS_UTL.allPresent (some "a.GZ".toList) 6 =
      AS_UTL.Ctor.ok ⟨AS_UTL.Handle.popen "gzip -6c > a.GZ".toList 'w', true, false⟩ ∧
    (⟨AS_UTL.Handle.popen "gzip -dc a.GZ".toList 'r', true, false⟩ :
      AS_UTL.CompressedFile).transport = AS_UTL.Transport.pipe "gzip".toList := by
  refine ⟨by decide, by decide, by decide, by decide, by decide, by decide, ?_, by decide⟩
  decide
